import Mathlib

/-!
# Verification of the voucher-bot core (`main.py`)

A shallow embedding of the core of the voucher bot:

* `best_combination` — the 0/1-knapsack style combination engine
  (`main.py`, `best_combination`);
* the voucher store (`vouchers` table) as a list of rows, with the
  operations `insertIfNew` (the `INSERT OR IGNORE` used by every adapter),
  `allocate` (the claim transaction in `_deliver_vouchers`),
  `markUsed` (the `used` command) and `listDistinctStores`
  (the store-menu query in `handle_message`);
* the numeric-message branches of `handle_message` (the negotiation
  state machine);
* the per-row tally loop of `import_excel`.

Machine integers do not overflow here (Python ints are unbounded and all
quantities are parsed from digit strings), so amounts, targets, ids and
counters are `Nat`.
-/

/-! ## Association-list helpers (Python `dict` as an insertion-ordered list) -/

theorem lookup_eq_none_iff (dp : List (Nat × List Nat)) (k : Nat) :
    dp.lookup k = none ↔ ∀ p ∈ dp, p.1 ≠ k := by
  induction dp with
  | nil => simp
  | cons e es ih =>
    rw [List.lookup]
    by_cases h : k = e.1
    · subst h
      simp
    · have hb : (k == e.1) = false := by simp [h]
      simp only [hb]
      rw [ih]
      constructor
      · intro hall p hp
        rcases List.mem_cons.mp hp with hp | hp
        · subst hp; exact fun hc => h hc.symm
        · exact hall p hp
      · intro hall p hp
        exact hall p (List.mem_cons_of_mem _ hp)

theorem lookup_mem {dp : List (Nat × List Nat)} {k : Nat} {v : List Nat}
    (h : dp.lookup k = some v) : (k, v) ∈ dp := by
  induction dp with
  | nil => simp [List.lookup] at h
  | cons e es ih =>
    rw [List.lookup] at h
    by_cases hk : k = e.1
    · subst hk
      simp at h
      subst h
      exact List.mem_cons_self _ _
    · have hb : (k == e.1) = false := by simp [hk]
      rw [hb] at h
      exact List.mem_cons_of_mem _ (ih h)

theorem lookup_isSome_of_mem {dp : List (Nat × List Nat)} {k : Nat} {v : List Nat}
    (h : (k, v) ∈ dp) : ∃ w, dp.lookup k = some w := by
  induction dp with
  | nil => simp at h
  | cons e es ih =>
    rw [List.lookup]
    by_cases hk : k = e.1
    · subst hk
      simp
    · have hb : (k == e.1) = false := by simp [hk]
      rw [hb]
      rcases List.mem_cons.mp h with h | h
      · exact absurd (congrArg Prod.fst h) hk
      · exact ih h

/-! ## The combination engine (`best_combination` in `main.py`)

Python source:
```
dp: dict[int, list[int]] = {0: []}
for vid, amt in vouchers:
    for current_sum, ids in list(dp.items()):
        new_sum = current_sum + amt
        if new_sum <= target and new_sum not in dp:
            dp[new_sum] = ids + [vid]
best_sum = max(dp.keys())
return dp[best_sum], best_sum
```
A Python `dict` is insertion-ordered, so it is embedded as an association
list to which new bindings are appended.  The inner `for` iterates over a
snapshot (`list(dp.items())`) while the membership test `new_sum not in dp`
consults the live dict; the fold below threads the live dict over the
snapshot exactly as the source does. -/

/-- Body of the inner loop of `best_combination`: try to extend entry `e`
of the snapshot by voucher `(vid, amt)` against the live table `dp`. -/
def dpStepF (target vid amt : Nat) (dp : List (Nat × List Nat))
    (e : Nat × List Nat) : List (Nat × List Nat) :=
  if e.1 + amt ≤ target ∧ (dp.lookup (e.1 + amt)).isNone then
    dp ++ [(e.1 + amt, e.2 ++ [vid])]
  else dp

/-- One outer-loop iteration of `best_combination`: process voucher
`(vid, amt)` against the dp table `dp0`. -/
def dpStep (target : Nat) (dp0 : List (Nat × List Nat)) (vid amt : Nat) :
    List (Nat × List Nat) :=
  dp0.foldl (dpStepF target vid amt) dp0

/-- The dp table after processing all vouchers. -/
def runDP (vouchers : List (Nat × Nat)) (target : Nat) : List (Nat × List Nat) :=
  vouchers.foldl (fun dp v => dpStep target dp v.1 v.2) [(0, [])]

/-- `best_combination` from `main.py`: subset of `(id, amount)` vouchers
summing as close to `target` as possible without exceeding it; returns
`(chosen_ids, total)`. -/
def best_combination (vouchers : List (Nat × Nat)) (target : Nat) :
    List Nat × Nat :=
  let dp := runDP vouchers target
  let best_sum := (dp.map Prod.fst).foldl Nat.max 0
  ((dp.lookup best_sum).getD [], best_sum)

/-! ### dp-table lemmas -/

theorem mem_dpStepF_of_mem {target vid amt : Nat} {dp : List (Nat × List Nat)}
    {e y : Nat × List Nat} (h : y ∈ dp) : y ∈ dpStepF target vid amt dp e := by
  unfold dpStepF
  split
  · exact List.mem_append_left _ h
  · exact h

theorem mem_dpStepF_elim {target vid amt : Nat} {dp : List (Nat × List Nat)}
    {e y : Nat × List Nat} (h : y ∈ dpStepF target vid amt dp e) :
    y ∈ dp ∨ (y = (e.1 + amt, e.2 ++ [vid]) ∧ e.1 + amt ≤ target) := by
  unfold dpStepF at h
  split at h
  · rename_i hc
    rcases List.mem_append.mp h with h | h
    · exact Or.inl h
    · exact Or.inr ⟨List.mem_singleton.mp h, hc.1⟩
  · exact Or.inl h

theorem dpStep_mem_of_mem {target vid amt : Nat} {dp0 : List (Nat × List Nat)}
    {e : Nat × List Nat} (h : e ∈ dp0) : e ∈ dpStep target dp0 vid amt := by
  unfold dpStep
  suffices H : ∀ (l acc : List (Nat × List Nat)), e ∈ acc →
      e ∈ l.foldl (dpStepF target vid amt) acc by
    exact H dp0 dp0 h
  intro l
  induction l with
  | nil => intro acc h; exact h
  | cons x xs ih =>
    intro acc h
    simp only [List.foldl_cons]
    exact ih _ (mem_dpStepF_of_mem h)

theorem dpStep_sound {target vid amt : Nat} {dp0 : List (Nat × List Nat)}
    {e : Nat × List Nat} (h : e ∈ dpStep target dp0 vid amt) :
    e ∈ dp0 ∨ ∃ s ids, (s, ids) ∈ dp0 ∧ e = (s + amt, ids ++ [vid]) ∧ s + amt ≤ target := by
  unfold dpStep at h
  suffices H : ∀ (l acc : List (Nat × List Nat)),
      (∀ x ∈ l, x ∈ dp0) →
      (∀ x ∈ acc, x ∈ dp0 ∨
        ∃ s ids, (s, ids) ∈ dp0 ∧ x = (s + amt, ids ++ [vid]) ∧ s + amt ≤ target) →
      e ∈ l.foldl (dpStepF target vid amt) acc →
      e ∈ dp0 ∨
        ∃ s ids, (s, ids) ∈ dp0 ∧ e = (s + amt, ids ++ [vid]) ∧ s + amt ≤ target by
    exact H dp0 dp0 (fun x hx => hx) (fun x hx => Or.inl hx) h
  intro l
  induction l with
  | nil =>
    intro acc _ hacc he
    exact hacc e he
  | cons x xs ih =>
    intro acc hl hacc he
    simp only [List.foldl_cons] at he
    refine ih _ (fun y hy => hl y (List.mem_cons_of_mem _ hy)) ?_ he
    intro y hy
    rcases mem_dpStepF_elim hy with hy | ⟨rfl, hle⟩
    · exact hacc y hy
    · exact Or.inr ⟨x.1, x.2, hl x (List.mem_cons_self _ _), rfl, hle⟩

theorem dpStep_key_complete {target vid amt : Nat} {dp0 : List (Nat × List Nat)}
    {s : Nat} {ids : List Nat} (h : (s, ids) ∈ dp0) (hle : s + amt ≤ target) :
    ∃ ids', (s + amt, ids') ∈ dpStep target dp0 vid amt := by
  unfold dpStep
  suffices H : ∀ (l acc : List (Nat × List Nat)),
      ((s, ids) ∈ l ∨ ∃ w, (s + amt, w) ∈ acc) →
      ∃ ids', (s + amt, ids') ∈ l.foldl (dpStepF target vid amt) acc by
    exact H dp0 dp0 (Or.inl h)
  intro l
  induction l with
  | nil =>
    intro acc hcase
    rcases hcase with hc | ⟨w, hw⟩
    · simp at hc
    · exact ⟨w, hw⟩
  | cons x xs ih =>
    intro acc hcase
    simp only [List.foldl_cons]
    rcases hcase with hc | ⟨w, hw⟩
    · rcases List.mem_cons.mp hc with hx | hxs
      · -- x is our entry: after this step the key s + amt is present in the live table
        apply ih
        right
        unfold dpStepF
        split
        · refine ⟨x.2 ++ [vid], ?_⟩
          have hx1 : s = x.1 := congrArg Prod.fst hx
          rw [hx1]
          exact List.mem_append_right _ (List.mem_singleton.mpr rfl)
        · rename_i hcond
          rw [Classical.not_and_iff_or_not_not] at hcond
          have hx1 : s = x.1 := congrArg Prod.fst hx
          rcases hcond with hgt | hsome
          · exact absurd (hx1 ▸ hle) hgt
          · rw [Option.isNone_iff_eq_none] at hsome
            rcases Option.ne_none_iff_exists'.mp hsome with ⟨w, hw⟩
            exact ⟨w, hx1 ▸ lookup_mem hw⟩
      · exact ih _ (Or.inl hxs)
    · exact ih _ (Or.inr ⟨w, mem_dpStepF_of_mem hw⟩)

/-- `dpStep` only appends entries. -/
theorem dpStep_append (target : Nat) (dp0 : List (Nat × List Nat)) (vid amt : Nat) :
    ∃ ext, dpStep target dp0 vid amt = dp0 ++ ext := by
  unfold dpStep
  suffices H : ∀ (l acc : List (Nat × List Nat)),
      (∃ e, acc = dp0 ++ e) →
      ∃ ext, l.foldl (dpStepF target vid amt) acc = dp0 ++ ext by
    exact H dp0 dp0 ⟨[], by simp⟩
  intro l
  induction l with
  | nil => intro acc h; simpa using h
  | cons x xs ih =>
    intro acc ⟨e, he⟩
    simp only [List.foldl_cons]
    apply ih
    unfold dpStepF
    split
    · exact ⟨e ++ [(x.1 + amt, x.2 ++ [vid])], by rw [he, List.append_assoc]⟩
    · exact ⟨e, he⟩

/-- Soundness transfer along one outer-loop step: every entry of the new
table is witnessed by a sublist of the vouchers seen so far. -/
theorem dpStep_entry_sound {target vid amt : Nat} {pre : List (Nat × Nat)}
    {dp : List (Nat × List Nat)}
    (hdp : ∀ e ∈ dp, e.1 ≤ target ∧ ∃ sub, List.Sublist sub pre ∧
      sub.map Prod.fst = e.2 ∧ (sub.map Prod.snd).sum = e.1) :
    ∀ e ∈ dpStep target dp vid amt, e.1 ≤ target ∧ ∃ sub,
      List.Sublist sub (pre ++ [(vid, amt)]) ∧
      sub.map Prod.fst = e.2 ∧ (sub.map Prod.snd).sum = e.1 := by
  intro e he
  rcases dpStep_sound he with he | ⟨s, ids, hmem, rfl, hle⟩
  · rcases hdp e he with ⟨h1, sub, hsub, h2, h3⟩
    exact ⟨h1, sub, hsub.trans (List.sublist_append_left _ _), h2, h3⟩
  · rcases hdp _ hmem with ⟨h1, sub, hsub, h2, h3⟩
    refine ⟨hle, sub ++ [(vid, amt)], hsub.append (List.Sublist.refl _), ?_, ?_⟩
    · simp [h2]
    · simp [h3]

/-- Completeness transfer along one outer-loop step: every sum achievable
from the vouchers seen so far (and ≤ target) is a key of the new table. -/
theorem dpStep_key_complete_step {target vid amt : Nat} {pre : List (Nat × Nat)}
    {dp : List (Nat × List Nat)}
    (hdp : ∀ sub, List.Sublist sub pre → (sub.map Prod.snd).sum ≤ target →
      ∃ ids, ((sub.map Prod.snd).sum, ids) ∈ dp) :
    ∀ sub, List.Sublist sub (pre ++ [(vid, amt)]) →
      (sub.map Prod.snd).sum ≤ target →
      ∃ ids, ((sub.map Prod.snd).sum, ids) ∈ dpStep target dp vid amt := by
  intro sub hsub hle
  rcases List.sublist_append_iff.mp hsub with ⟨l₁, l₂, rfl, h₁, h₂⟩
  rcases List.sublist_singleton.mp h₂ with rfl | rfl
  · rw [List.append_nil] at hle ⊢
    rcases hdp l₁ h₁ hle with ⟨ids, hids⟩
    exact ⟨ids, dpStep_mem_of_mem hids⟩
  · have hsum : ((l₁ ++ [(vid, amt)]).map Prod.snd).sum
        = (l₁.map Prod.snd).sum + amt := by simp
    rw [hsum] at hle ⊢
    have hle₁ : (l₁.map Prod.snd).sum ≤ target :=
      le_trans (Nat.le_add_right _ _) hle
    rcases hdp l₁ h₁ hle₁ with ⟨ids, hids⟩
    exact dpStep_key_complete hids hle

/-- Every entry of the final dp table is a sum ≤ target achieved by a
sublist of the input, whose ids are the stored id list. -/
theorem runDP_entry_sound (vouchers : List (Nat × Nat)) (target : Nat) :
    ∀ e ∈ runDP vouchers target, e.1 ≤ target ∧ ∃ sub,
      List.Sublist sub vouchers ∧
      sub.map Prod.fst = e.2 ∧ (sub.map Prod.snd).sum = e.1 := by
  suffices H : ∀ (rest pre : List (Nat × Nat)) (dp : List (Nat × List Nat)),
      (∀ e ∈ dp, e.1 ≤ target ∧ ∃ sub, List.Sublist sub pre ∧
        sub.map Prod.fst = e.2 ∧ (sub.map Prod.snd).sum = e.1) →
      ∀ e ∈ rest.foldl (fun dp v => dpStep target dp v.1 v.2) dp,
        e.1 ≤ target ∧ ∃ sub, List.Sublist sub (pre ++ rest) ∧
          sub.map Prod.fst = e.2 ∧ (sub.map Prod.snd).sum = e.1 by
    have h0 : ∀ e ∈ [((0 : Nat), ([] : List Nat))], e.1 ≤ target ∧
        ∃ sub, List.Sublist sub ([] : List (Nat × Nat)) ∧
          sub.map Prod.fst = e.2 ∧ (sub.map Prod.snd).sum = e.1 := by
      intro e he
      rcases List.mem_singleton.mp he with rfl
      exact ⟨Nat.zero_le _, [], List.Sublist.refl _, rfl, rfl⟩
    intro e he
    simpa using H vouchers [] [(0, [])] h0 e he
  intro rest
  induction rest with
  | nil =>
    intro pre dp hdp e he
    simpa using hdp e he
  | cons v vs ih =>
    intro pre dp hdp e he
    simp only [List.foldl_cons] at he
    have := ih (pre ++ [(v.1, v.2)]) _ (dpStep_entry_sound hdp) e he
    simpa using this

/-- Every sum ≤ target achievable by a sublist of the input is a key of
the final dp table. -/
theorem runDP_key_complete (vouchers : List (Nat × Nat)) (target : Nat) :
    ∀ sub, List.Sublist sub vouchers → (sub.map Prod.snd).sum ≤ target →
      ∃ ids, ((sub.map Prod.snd).sum, ids) ∈ runDP vouchers target := by
  suffices H : ∀ (rest pre : List (Nat × Nat)) (dp : List (Nat × List Nat)),
      (∀ sub, List.Sublist sub pre → (sub.map Prod.snd).sum ≤ target →
        ∃ ids, ((sub.map Prod.snd).sum, ids) ∈ dp) →
      ∀ sub, List.Sublist sub (pre ++ rest) → (sub.map Prod.snd).sum ≤ target →
        ∃ ids, ((sub.map Prod.snd).sum, ids) ∈
          rest.foldl (fun dp v => dpStep target dp v.1 v.2) dp by
    have h0 : ∀ sub, List.Sublist sub ([] : List (Nat × Nat)) →
        (sub.map Prod.snd).sum ≤ target →
        ∃ ids, ((sub.map Prod.snd).sum, ids) ∈ [((0 : Nat), ([] : List Nat))] := by
      intro sub hsub _
      rcases List.sublist_nil.mp hsub with rfl
      exact ⟨[], by simp⟩
    intro sub hsub hle
    simpa using H vouchers [] [(0, [])] h0 sub (by simpa using hsub) hle
  intro rest
  induction rest with
  | nil =>
    intro pre dp hdp sub hsub hle
    exact hdp sub (by simpa using hsub) hle
  | cons v vs ih =>
    intro pre dp hdp sub hsub hle
    simp only [List.foldl_cons]
    have hsub' : List.Sublist sub ((pre ++ [(v.1, v.2)]) ++ vs) := by
      simpa using hsub
    exact ih (pre ++ [(v.1, v.2)]) _ (dpStep_key_complete_step hdp) sub hsub' hle

/-- The entry `(0, [])` is always present in the final dp table. -/
theorem runDP_mem_zero (vouchers : List (Nat × Nat)) (target : Nat) :
    ((0 : Nat), ([] : List Nat)) ∈ runDP vouchers target := by
  unfold runDP
  suffices H : ∀ (rest : List (Nat × Nat)) (dp : List (Nat × List Nat)),
      ((0 : Nat), ([] : List Nat)) ∈ dp →
      ((0 : Nat), ([] : List Nat)) ∈
        rest.foldl (fun dp v => dpStep target dp v.1 v.2) dp by
    exact H vouchers [(0, [])] (List.mem_singleton.mpr rfl)
  intro rest
  induction rest with
  | nil => intro dp h; exact h
  | cons v vs ih =>
    intro dp h
    simp only [List.foldl_cons]
    exact ih _ (dpStep_mem_of_mem h)

/-! ### `foldl Nat.max` helpers -/

theorem le_foldl_max (l : List Nat) (a : Nat) :
    (∀ x ∈ l, x ≤ l.foldl Nat.max a) ∧ a ≤ l.foldl Nat.max a := by
  induction l generalizing a with
  | nil => exact ⟨by simp, Nat.le_refl _⟩
  | cons x xs ih =>
    refine ⟨?_, ?_⟩
    · intro y hy
      rcases List.mem_cons.mp hy with rfl | hy
      · simp only [List.foldl_cons]
        exact le_trans (Nat.le_max_right a y) (ih (Nat.max a y)).2
      · simp only [List.foldl_cons]
        exact (ih (Nat.max a x)).1 y hy
    · simp only [List.foldl_cons]
      exact le_trans (Nat.le_max_left a x) (ih (Nat.max a x)).2

theorem foldl_max_eq_or_mem (l : List Nat) (a : Nat) :
    l.foldl Nat.max a = a ∨ l.foldl Nat.max a ∈ l := by
  induction l generalizing a with
  | nil => exact Or.inl rfl
  | cons x xs ih =>
    simp only [List.foldl_cons]
    rcases ih (Nat.max a x) with h | h
    · rw [h]
      rcases Nat.le_total a x with hax | hxa
      · have hx : Nat.max a x = x := Nat.max_eq_right hax
        exact Or.inr (by rw [hx]; exact List.mem_cons_self _ _)
      · exact Or.inl (Nat.max_eq_left hxa)
    · exact Or.inr (List.mem_cons_of_mem _ h)

/-! ### `best_combination` correctness (shared lemmas) -/

/-- The achieved sum never exceeds the target. -/
theorem bc_le_target (vouchers : List (Nat × Nat)) (target : Nat) :
    (best_combination vouchers target).2 ≤ target := by
  unfold best_combination
  dsimp only
  rcases foldl_max_eq_or_mem ((runDP vouchers target).map Prod.fst) 0 with h | h
  · rw [h]; exact Nat.zero_le _
  · rcases List.mem_map.mp h with ⟨e, he, hfst⟩
    rw [← hfst]
    exact (runDP_entry_sound vouchers target e he).1

/-- The lookup of the best sum always succeeds, at an entry of the table. -/
theorem bc_lookup_spec (vouchers : List (Nat × Nat)) (target : Nat) :
    ∃ w, (runDP vouchers target).lookup
        (((runDP vouchers target).map Prod.fst).foldl Nat.max 0) = some w := by
  rcases foldl_max_eq_or_mem ((runDP vouchers target).map Prod.fst) 0 with h | h
  · rw [h]
    exact lookup_isSome_of_mem (runDP_mem_zero vouchers target)
  · rcases List.mem_map.mp h with ⟨e, he, hfst⟩
    rw [← hfst]
    exact lookup_isSome_of_mem
      (show (e.1, e.2) ∈ runDP vouchers target by rw [Prod.mk.eta]; exact he)

/-- The result is achieved: some sublist of the input has exactly the
chosen ids and sums to the achieved total. -/
theorem bc_achieved (vouchers : List (Nat × Nat)) (target : Nat) :
    ∃ sub, List.Sublist sub vouchers ∧
      sub.map Prod.fst = (best_combination vouchers target).1 ∧
      (sub.map Prod.snd).sum = (best_combination vouchers target).2 := by
  rcases bc_lookup_spec vouchers target with ⟨w, hw⟩
  have hmem := lookup_mem hw
  rcases runDP_entry_sound vouchers target _ hmem with ⟨_, sub, hsub, hfst, hsum⟩
  refine ⟨sub, hsub, ?_, ?_⟩
  · unfold best_combination
    dsimp only
    rw [hw]
    exact hfst
  · unfold best_combination
    dsimp only
    exact hsum

/-- Maximality: no sublist whose sum fits under the target beats the
achieved total. -/
theorem bc_maximal (vouchers : List (Nat × Nat)) (target : Nat)
    (sub : List (Nat × Nat)) (hsub : List.Sublist sub vouchers)
    (hle : (sub.map Prod.snd).sum ≤ target) :
    (sub.map Prod.snd).sum ≤ (best_combination vouchers target).2 := by
  rcases runDP_key_complete vouchers target sub hsub hle with ⟨ids, hids⟩
  unfold best_combination
  dsimp only
  exact (le_foldl_max ((runDP vouchers target).map Prod.fst) 0).1 _
    (List.mem_map.mpr ⟨_, hids, rfl⟩)

/-- Transfer of the achieved sum along a permutation of the input. -/
theorem bc_sum_le_of_perm (l l' : List (Nat × Nat)) (target : Nat)
    (h : List.Perm l l') :
    (best_combination l target).2 ≤ (best_combination l' target).2 := by
  rcases bc_achieved l target with ⟨sub, hsub, _, hsum⟩
  have hsp : List.Subperm sub l' := hsub.subperm.trans h.subperm
  rcases hsp with ⟨t, hperm, hsubl⟩
  have hsumeq : (t.map Prod.snd).sum = (sub.map Prod.snd).sum :=
    (hperm.map Prod.snd).sum_eq
  have hle : (t.map Prod.snd).sum ≤ target := by
    rw [hsumeq, hsum]; exact bc_le_target l target
  have := bc_maximal l' target t hsubl hle
  rw [hsumeq, hsum] at this
  exact this

/-- Target-0 tables are trivial: nothing is ever added. -/
theorem dpStep_target_zero (vid amt : Nat) :
    dpStep 0 [(0, [])] vid amt = [(0, [])] := by
  unfold dpStep dpStepF
  simp only [List.foldl_cons, List.foldl_nil]
  cases amt with
  | zero => simp [List.lookup]
  | succ n => simp

theorem runDP_target_zero (vouchers : List (Nat × Nat)) :
    runDP vouchers 0 = [(0, [])] := by
  unfold runDP
  induction vouchers with
  | nil => rfl
  | cons v vs ih =>
    simp only [List.foldl_cons, dpStep_target_zero]
    exact ih

/-- When a voucher exceeds the target, its outer-loop pass over the
trivial table adds nothing. -/
theorem dpStep_no_fit (target vid amt : Nat) (h : target < amt) :
    dpStep target [(0, [])] vid amt = [(0, [])] := by
  unfold dpStep dpStepF
  simp only [List.foldl_cons, List.foldl_nil]
  have hn : ¬ (amt ≤ target) := by omega
  simp [hn]

theorem runDP_no_fit (vouchers : List (Nat × Nat)) (target : Nat)
    (h : ∀ p ∈ vouchers, target < p.2) : runDP vouchers target = [(0, [])] := by
  unfold runDP
  induction vouchers with
  | nil => rfl
  | cons v vs ih =>
    simp only [List.foldl_cons]
    rw [dpStep_no_fit target v.1 v.2 (h v (List.mem_cons_self _ _))]
    exact ih fun p hp => h p (List.mem_cons_of_mem _ hp)

/-- C1: For every input list of (id, amount) pairs and every target,
`best_combination` returns `(chosen ids, achieved sum)` where the achieved
sum is the sum of the chosen vouchers' amounts (the chosen ids are the
ids of a sublist of the input whose amounts sum to it), is ≤ target, and
is maximal among the sums of all subsets of the input whose sum is
≤ target; the function is deterministic (it is a pure function: equal
inputs give equal outputs). -/
theorem best_combination_correct (vouchers : List (Nat × Nat)) (target : Nat) :
    (best_combination vouchers target).2 ≤ target ∧
    (∃ sub, List.Sublist sub vouchers ∧
      sub.map Prod.fst = (best_combination vouchers target).1 ∧
      (sub.map Prod.snd).sum = (best_combination vouchers target).2) ∧
    (∀ sub, List.Sublist sub vouchers → (sub.map Prod.snd).sum ≤ target →
      (sub.map Prod.snd).sum ≤ (best_combination vouchers target).2) ∧
    best_combination vouchers target = best_combination vouchers target :=
  ⟨bc_le_target vouchers target, bc_achieved vouchers target,
    fun sub h1 h2 => bc_maximal vouchers target sub h1 h2, rfl⟩

theorem best_combination_correct_witness :
    List.Sublist [((2 : Nat), (150 : Nat)), (3, 80)] [(1, 100), (2, 150), (3, 80)] ∧
    (([((2 : Nat), (150 : Nat)), (3, 80)]).map Prod.snd).sum ≤ 230 ∧
    (([((2 : Nat), (150 : Nat)), (3, 80)]).map Prod.snd).sum ≤
      (best_combination [(1, 100), (2, 150), (3, 80)] 230).2 :=
  ⟨by decide, by decide,
    (best_combination_correct [(1, 100), (2, 150), (3, 80)] 230).2.2.1
      [(2, 150), (3, 80)] (by decide) (by decide)⟩

/-- C6: For every list of (id, amount) pairs, every target, and every
permutation of that list, the achieved sum on the permuted input equals
the achieved sum on the original input. -/
theorem best_combination_perm_sum_eq (l l' : List (Nat × Nat)) (target : Nat)
    (h : List.Perm l l') :
    (best_combination l target).2 = (best_combination l' target).2 :=
  Nat.le_antisymm (bc_sum_le_of_perm l l' target h)
    (bc_sum_le_of_perm l' l target h.symm)

theorem best_combination_perm_sum_eq_witness :
    List.Perm [((1 : Nat), (100 : Nat)), (2, 150), (3, 80)]
        [(3, 80), (1, 100), (2, 150)] ∧
    (best_combination [((1 : Nat), (100 : Nat)), (2, 150), (3, 80)] 180).2 =
      (best_combination [(3, 80), (1, 100), (2, 150)] 180).2 :=
  ⟨by decide,
    best_combination_perm_sum_eq [(1, 100), (2, 150), (3, 80)]
      [(3, 80), (1, 100), (2, 150)] 180 (by decide)⟩

/-- C7: `best_combination` returns `([], 0)` on an empty input, on
target 0, and whenever no single input voucher's amount fits under the
target. -/
theorem best_combination_trivial (vouchers : List (Nat × Nat)) (target : Nat) :
    best_combination [] target = ([], 0) ∧
    best_combination vouchers 0 = ([], 0) ∧
    ((∀ p ∈ vouchers, target < p.2) → best_combination vouchers target = ([], 0)) := by
  refine ⟨rfl, ?_, ?_⟩
  · unfold best_combination
    rw [runDP_target_zero]
    rfl
  · intro h
    unfold best_combination
    rw [runDP_no_fit vouchers target h]
    rfl

theorem best_combination_trivial_witness :
    (∀ p ∈ [((1 : Nat), (100 : Nat)), (2, 150)], 50 < p.2) ∧
    best_combination [((1 : Nat), (100 : Nat)), (2, 150)] 50 = ([], 0) :=
  ⟨by decide, (best_combination_trivial [(1, 100), (2, 150)] 50).2.2 (by decide)⟩

/-! ## The voucher store (`vouchers` table in `main.py`)

One row of the SQLite table `vouchers` (schema in `init_db`); `id` is the
`INTEGER PRIMARY KEY AUTOINCREMENT`, `status` defaults to `'available'`,
`assigned_to` is `NULL`-able.  `date_added` (a timestamp) carries no
information used by any operation and is omitted. -/

inductive Status where
  | available
  | pending
  | used
deriving DecidableEq, Repr

structure Voucher where
  id : Nat
  code : String
  amount : Nat
  store : Option String
  status : Status
  source_email : Option String
  assigned_to : Option Nat
  barcode_image_path : Option String
deriving DecidableEq, Repr

/-- `needle` is a leading segment of `hay` (character-wise). -/
def isPre : List Char → List Char → Bool
  | [], _ => true
  | _ :: _, [] => false
  | a :: as, b :: bs => a == b && isPre as bs

/-- `needle` occurs contiguously inside `hay`. -/
def containsSub (needle : List Char) : List Char → Bool
  | [] => needle.isEmpty
  | c :: rest => isPre needle (c :: rest) || containsSub needle rest

/-- SQL `store LIKE '%' || sub || '%'` on the nullable `store` column:
`NULL LIKE pattern` is `NULL` (not a match); otherwise substring
containment of `sub` in the stored label. -/
def likeMatch (store : Option String) (sub : String) : Bool :=
  match store with
  | none => false
  | some s => containsSub sub.data s.data

/-- The `WHERE status='available' AND store LIKE ?` candidate filter of
`_deliver_vouchers`. -/
def availMatch (sub : String) (v : Voucher) : Bool :=
  v.status == Status.available && likeMatch v.store sub

/-- Stable insertion of a voucher into an amount-descending list. -/
def insertDesc (v : Voucher) : List Voucher → List Voucher
  | [] => [v]
  | w :: ws => if w.amount < v.amount then v :: w :: ws else w :: insertDesc v ws

/-- `ORDER BY amount DESC` (stable: ties keep insertion order). -/
def sortByAmountDesc : List Voucher → List Voucher
  | [] => []
  | v :: vs => insertDesc v (sortByAmountDesc vs)

/-- `INSERT OR IGNORE INTO vouchers (code, amount, store, source_email,
barcode_image_path) VALUES (...)`: a no-op when the `UNIQUE` column `code`
is already present; otherwise appends a fresh row with the defaults
`status='available'`, `assigned_to=NULL` and the next `AUTOINCREMENT` id.
All three adapters (mail ingestion, Excel import, the seed script) insert
through exactly this statement. -/
def insertIfNew (db : List Voucher) (code : String) (amount : Nat)
    (store source img : Option String) : List Voucher :=
  if db.any fun v => v.code == code then db
  else
    db ++ [{ id := (db.map Voucher.id).foldl Nat.max 0 + 1
             code := code
             amount := amount
             store := store
             status := Status.available
             source_email := source
             assigned_to := none
             barcode_image_path := img }]

inductive AllocOutcome where
  | noInventory
  | noFeasible
  | claimed (ids : List Nat) (total : Nat)
deriving DecidableEq, Repr

/-- `UPDATE vouchers SET status='pending', assigned_to=? WHERE id=?`. -/
def claimUpdate (user vid : Nat) (v : Voucher) : Voucher :=
  if v.id == vid then { v with status := Status.pending, assigned_to := some user }
  else v

/-- The claim transaction of `_deliver_vouchers` (`BEGIN IMMEDIATE` …
`COMMIT`/`ROLLBACK`): read the available matching rows ordered by amount
descending, run `best_combination`, and either roll back (store returned
unchanged) or mark every chosen id pending for the requester.  The
exception path of the Python code executes `ROLLBACK`, whose SQLite
semantics is the same unchanged store. -/
def allocate (db : List Voucher) (user_id target : Nat) (store_substr : String) :
    AllocOutcome × List Voucher :=
  let rows := sortByAmountDesc (db.filter (availMatch store_substr))
  if rows.isEmpty then (AllocOutcome.noInventory, db)
  else
    let voucher_list := rows.map fun v => (v.id, v.amount)
    let res := best_combination voucher_list target
    if res.1.isEmpty then (AllocOutcome.noFeasible, db)
    else
      (AllocOutcome.claimed res.1 res.2,
        res.1.foldl (fun d vid => d.map (claimUpdate user_id vid)) db)

/-- The `used` command: `SELECT id … WHERE status='pending' AND
assigned_to=?` then `UPDATE … SET status='used' WHERE id IN (…)`;
returns the new store and the number of vouchers marked. -/
def markUsed (db : List Voucher) (user_id : Nat) : List Voucher × Nat :=
  let ids := (db.filter fun v =>
    v.status == Status.pending && v.assigned_to == some user_id).map Voucher.id
  (db.map fun v => if ids.contains v.id then { v with status := Status.used } else v,
    ids.length)

/-- Stable insertion into an alphabetically ascending list of labels. -/
def insertAsc (s : String) : List String → List String
  | [] => [s]
  | t :: ts => if s ≤ t then s :: t :: ts else t :: insertAsc s ts

def sortStringsAsc : List String → List String
  | [] => []
  | s :: ss => insertAsc s (sortStringsAsc ss)

/-- `SELECT DISTINCT store FROM vouchers WHERE status='available' AND
store IS NOT NULL ORDER BY store` (the store menu of `handle_message`). -/
def listDistinctStores (db : List Voucher) : List String :=
  (sortStringsAsc
    ((db.filter fun v => v.status == Status.available && v.store.isSome).filterMap
      Voucher.store)).dedup

/-! ### Store lemmas -/

theorem insertDesc_perm (v : Voucher) (l : List Voucher) :
    List.Perm (insertDesc v l) (v :: l) := by
  induction l with
  | nil => exact List.Perm.refl _
  | cons w ws ih =>
    unfold insertDesc
    split
    · exact List.Perm.refl _
    · exact (ih.cons w).trans (List.Perm.swap v w ws)

theorem sortByAmountDesc_perm (l : List Voucher) :
    List.Perm (sortByAmountDesc l) l := by
  induction l with
  | nil => exact List.Perm.refl _
  | cons v vs ih =>
    unfold sortByAmountDesc
    exact (insertDesc_perm v (sortByAmountDesc vs)).trans (ih.cons v)

theorem mem_sortByAmountDesc {v : Voucher} {l : List Voucher} :
    v ∈ sortByAmountDesc l ↔ v ∈ l :=
  (sortByAmountDesc_perm l).mem_iff

/-- Sequential per-id `UPDATE`s coincide with a single conditional map. -/
theorem foldl_claimUpdate (user : Nat) (ids : List Nat) (db : List Voucher) :
    ids.foldl (fun d vid => d.map (claimUpdate user vid)) db =
      db.map fun v =>
        if ids.contains v.id then
          { v with status := Status.pending, assigned_to := some user }
        else v := by
  induction ids generalizing db with
  | nil =>
    simp
  | cons c cs ih =>
    simp only [List.foldl_cons]
    rw [ih, List.map_map]
    apply List.map_congr_left
    intro v _
    simp only [Function.comp_apply, claimUpdate]
    by_cases hc : v.id = c
    · have hb : (v.id == c) = true := by simp [hc]
      simp only [hb, if_true]
      have hid : ({ v with status := Status.pending, assigned_to := some user} : Voucher).id
          = v.id := rfl
      by_cases hcs : cs.contains v.id
      · simp [List.contains_cons, hid, hcs, hc]
      · simp [List.contains_cons, hid, hcs, hc]
    · have hb : (v.id == c) = false := by simp [hc]
      simp only [hb, if_false]
      simp [List.contains_cons, hc]

/-- Full characterization of a successful allocation: the chosen ids are
flipped to pending/assigned, all other rows are untouched, and each
chosen id belongs to an available row matching the store filter. -/
theorem allocate_claimed_spec (db : List Voucher) (user target : Nat)
    (sub : String) (ids : List Nat) (total : Nat)
    (h : (allocate db user target sub).1 = AllocOutcome.claimed ids total) :
    (allocate db user target sub).2 =
      (db.map fun v =>
        if ids.contains v.id then
          { v with status := Status.pending, assigned_to := some user }
        else v) ∧
    ∀ cid ∈ ids, ∃ v ∈ db, v.id = cid ∧ v.status = Status.available ∧
      likeMatch v.store sub = true := by
  unfold allocate at h ⊢
  dsimp only at h ⊢
  split at h
  · exact absurd h (by simp)
  · split at h
    · exact absurd h (by simp)
    · rename_i hrows hchosen
      simp only [AllocOutcome.claimed.injEq] at h
      rcases h with ⟨hids, htotal⟩
      constructor
      · simp only [if_neg hrows, if_neg hchosen]
        rw [foldl_claimUpdate, hids]
      · intro cid hcid
        rw [← hids] at hcid
        rcases bc_achieved
            ((sortByAmountDesc (db.filter (availMatch sub))).map
              fun v => (v.id, v.amount)) target with ⟨sl, hsl, hfst, _⟩
        rw [← hfst] at hcid
        rcases List.mem_map.mp hcid with ⟨p, hp, hpid⟩
        have hpv : p ∈ (sortByAmountDesc (db.filter (availMatch sub))).map
            fun v => (v.id, v.amount) := hsl.subset hp
        rcases List.mem_map.mp hpv with ⟨v, hv, hvp⟩
        have hvf : v ∈ db.filter (availMatch sub) := mem_sortByAmountDesc.mp hv
        have hvdb := List.mem_filter.mp hvf
        have hmatch := hvdb.2
        unfold availMatch at hmatch
        rw [Bool.and_eq_true] at hmatch
        refine ⟨v, hvdb.1, ?_, ?_, hmatch.2⟩
        · rw [← hpid, ← hvp]
        · exact beq_iff_eq.mp hmatch.1

/-- A one-voucher store used to instantiate theorems with hypotheses. -/
def demoDB : List Voucher :=
  [{ id := 1
     code := "91098085941400300563"
     amount := 200
     store := some "shufersal"
     status := Status.available
     source_email := none
     assigned_to := none
     barcode_image_path := none }]

/-- An aborted allocation (`ROLLBACK` paths) leaves the store unchanged. -/
theorem allocate_aborted_unchanged (db : List Voucher) (user target : Nat)
    (sub : String)
    (h : (allocate db user target sub).1 = AllocOutcome.noInventory ∨
      (allocate db user target sub).1 = AllocOutcome.noFeasible) :
    (allocate db user target sub).2 = db := by
  unfold allocate at h ⊢
  dsimp only at h ⊢
  split
  · rfl
  · split
    · rfl
    · rename_i hrows hchosen
      rw [if_neg hrows, if_neg hchosen] at h
      simp at h

/-- Every allocation outcome is one of the three constructors. -/
theorem allocate_outcome_cases (db : List Voucher) (user target : Nat)
    (sub : String) :
    (allocate db user target sub).1 = AllocOutcome.noInventory ∨
    (allocate db user target sub).1 = AllocOutcome.noFeasible ∨
    ∃ ids total, (allocate db user target sub).1 = AllocOutcome.claimed ids total := by
  unfold allocate
  dsimp only
  split
  · exact Or.inl rfl
  · split
    · exact Or.inr (Or.inl rfl)
    · exact Or.inr (Or.inr ⟨_, _, rfl⟩)

/-- C2: If an allocation does not end in `Claimed` — no available voucher
matches the store filter, or the combination engine chooses no vouchers
(exceptions roll back, which SQLite defines as the same unchanged
store) — then every voucher row is exactly as before: full rollback, no
partial claims. -/
theorem allocate_rollback (db : List Voucher) (user target : Nat) (sub : String)
    (h : (allocate db user target sub).1 = AllocOutcome.noInventory ∨
      (allocate db user target sub).1 = AllocOutcome.noFeasible) :
    (allocate db user target sub).2 = db :=
  allocate_aborted_unchanged db user target sub h

theorem allocate_rollback_witness :
    ((allocate demoDB 7 200 "zzz").1 = AllocOutcome.noInventory ∨
      (allocate demoDB 7 200 "zzz").1 = AllocOutcome.noFeasible) ∧
    (allocate demoDB 7 200 "zzz").2 = demoDB :=
  ⟨Or.inl rfl, allocate_rollback demoDB 7 200 "zzz" (Or.inl rfl)⟩

/-- C4: On a `Claimed` outcome every chosen voucher id moves
Available→Pending with `assigned_to` set to the requester, and no row
other than the chosen ids is modified.  (`id` is the table's primary
key, hence the `Nodup` hypothesis.) -/
theorem allocate_claimed_frame (db : List Voucher) (user target : Nat)
    (sub : String) (ids : List Nat) (total : Nat)
    (hnd : (db.map Voucher.id).Nodup)
    (h : (allocate db user target sub).1 = AllocOutcome.claimed ids total) :
    (allocate db user target sub).2 =
      (db.map fun v =>
        if ids.contains v.id then
          { v with status := Status.pending, assigned_to := some user }
        else v) ∧
    (∀ v ∈ db, v.id ∈ ids → v.status = Status.available) ∧
    (∀ cid ∈ ids, ∃ v ∈ db, v.id = cid ∧ v.status = Status.available ∧
      likeMatch v.store sub = true) := by
  rcases allocate_claimed_spec db user target sub ids total h with ⟨hmap, hsrc⟩
  refine ⟨hmap, ?_, hsrc⟩
  intro v hv hvid
  rcases hsrc v.id hvid with ⟨w, hw, hwid, hwavail, _⟩
  have : w = v := List.inj_on_of_nodup_map hnd hw hv hwid
  rw [← this]
  exact hwavail

theorem allocate_claimed_frame_witness :
    (demoDB.map Voucher.id).Nodup ∧
    (allocate demoDB 7 200 "shu").1 = AllocOutcome.claimed [1] 200 ∧
    ((allocate demoDB 7 200 "shu").2 =
      (demoDB.map fun v =>
        if [1].contains v.id then
          { v with status := Status.pending, assigned_to := some 7 }
        else v) ∧
    (∀ v ∈ demoDB, v.id ∈ [1] → v.status = Status.available) ∧
    (∀ cid ∈ [1], ∃ v ∈ demoDB, v.id = cid ∧ v.status = Status.available ∧
      likeMatch v.store "shu" = true)) :=
  ⟨by decide, by decide,
    allocate_claimed_frame demoDB 7 200 "shu" [1] 200 (by decide) (by decide)⟩

/-! ### Insert / dedup (`INSERT OR IGNORE` with `UNIQUE(code)`) -/

theorem insertIfNew_noop {db : List Voucher} {code : String}
    {a : Nat} {st src img : Option String} (h : ∃ v ∈ db, v.code = code) :
    insertIfNew db code a st src img = db := by
  unfold insertIfNew
  have hany : (db.any fun v => v.code == code) = true := by
    rcases h with ⟨v, hv, hc⟩
    exact List.any_eq_true.mpr ⟨v, hv, by simp [hc]⟩
  rw [if_pos hany]

theorem insertIfNew_fresh {db : List Voucher} {code : String}
    {a : Nat} {st src img : Option String} (h : ∀ v ∈ db, v.code ≠ code) :
    insertIfNew db code a st src img =
      db ++ [{ id := (db.map Voucher.id).foldl Nat.max 0 + 1
               code := code
               amount := a
               store := st
               status := Status.available
               source_email := src
               assigned_to := none
               barcode_image_path := img }] := by
  unfold insertIfNew
  have hany : (db.any fun v => v.code == code) = false := by
    rw [List.any_eq_false]
    intro v hv
    simp [h v hv]
  rw [hany]
  simp

/-- C3: Inserting a code that already exists (from any adapter — all of
them execute the same `INSERT OR IGNORE`) is a no-op, the store keeps at
most one row per code, and after two inserts of the same fresh code
exactly one row carries that code, with the fields of the first insert. -/
theorem insert_code_unique (db : List Voucher) (code : String) (a₁ a₂ : Nat)
    (st₁ st₂ src₁ src₂ img₁ img₂ : Option String)
    (hnd : (db.map Voucher.code).Nodup) :
    ((∃ v ∈ db, v.code = code) → insertIfNew db code a₁ st₁ src₁ img₁ = db) ∧
    ((insertIfNew db code a₁ st₁ src₁ img₁).map Voucher.code).Nodup ∧
    ((∀ v ∈ db, v.code ≠ code) →
      insertIfNew (insertIfNew db code a₁ st₁ src₁ img₁) code a₂ st₂ src₂ img₂ =
        insertIfNew db code a₁ st₁ src₁ img₁ ∧
      ((insertIfNew db code a₁ st₁ src₁ img₁).filter
        fun v => v.code == code).length = 1 ∧
      (∀ v ∈ insertIfNew db code a₁ st₁ src₁ img₁, v.code = code →
        v.amount = a₁ ∧ v.store = st₁ ∧ v.source_email = src₁ ∧
        v.status = Status.available ∧ v.assigned_to = none)) := by
  refine ⟨fun h => insertIfNew_noop h, ?_, fun hfresh => ?_⟩
  · by_cases h : ∃ v ∈ db, v.code = code
    · rw [insertIfNew_noop h]
      exact hnd
    · push_neg at h
      rw [insertIfNew_fresh h, List.map_append]
      refine List.Nodup.append hnd (by simp) ?_
      intro c hc hc'
      simp only [List.map_cons, List.map_nil, List.mem_singleton] at hc'
      rcases List.mem_map.mp hc with ⟨v, hv, hvc⟩
      exact h v hv (by rw [hvc, hc'])
  · rw [insertIfNew_fresh hfresh]
    refine ⟨?_, ?_, ?_⟩
    · apply insertIfNew_noop
      refine ⟨_, List.mem_append_right _ (List.mem_singleton.mpr rfl), rfl⟩
    · rw [List.filter_append]
      have h1 : db.filter (fun v => v.code == code) = [] := by
        rw [List.filter_eq_nil_iff]
        intro v hv
        simp [hfresh v hv]
      rw [h1]
      simp
    · intro v hv hvc
      rcases List.mem_append.mp hv with hv | hv
      · exact absurd hvc (hfresh v hv)
      · rcases List.mem_singleton.mp hv with rfl
        exact ⟨rfl, rfl, rfl, rfl, rfl⟩

theorem insert_code_unique_witness :
    ((demoDB.map Voucher.code).Nodup) ∧
    (∀ v ∈ demoDB, v.code ≠ "123456789012345") ∧
    insertIfNew (insertIfNew demoDB "123456789012345" 100 none none none)
        "123456789012345" 350 (some "x") (some "y") none =
      insertIfNew demoDB "123456789012345" 100 none none none :=
  ⟨by decide, by decide,
    ((insert_code_unique demoDB "123456789012345" 100 350 none (some "x") none
        (some "y") none none (by decide)).2.2 (by decide)).1⟩

/-! ### The `assigned_to` ⇔ status invariant (C8) -/

/-- `assigned_to` is non-null exactly on Pending/Used rows. -/
def assignedInv (db : List Voucher) : Prop :=
  ∀ v ∈ db, (v.assigned_to ≠ none ↔
    (v.status = Status.pending ∨ v.status = Status.used))

theorem assignedInv_insert (db : List Voucher) (code : String) (a : Nat)
    (st src img : Option String) (hinv : assignedInv db) :
    assignedInv (insertIfNew db code a st src img) := by
  intro v hv
  by_cases h : ∃ w ∈ db, w.code = code
  · rw [insertIfNew_noop h] at hv
    exact hinv v hv
  · push_neg at h
    rw [insertIfNew_fresh h] at hv
    rcases List.mem_append.mp hv with hv | hv
    · exact hinv v hv
    · rcases List.mem_singleton.mp hv with rfl
      constructor
      · intro hne
        exact absurd rfl hne
      · rintro (hs | hs) <;> exact Status.noConfusion hs

theorem assignedInv_allocate (db : List Voucher) (user target : Nat)
    (sub : String) (hinv : assignedInv db) :
    assignedInv (allocate db user target sub).2 := by
  rcases allocate_outcome_cases db user target sub with h | h | ⟨ids, total, h⟩
  · rw [allocate_aborted_unchanged db user target sub (Or.inl h)]
    exact hinv
  · rw [allocate_aborted_unchanged db user target sub (Or.inr h)]
    exact hinv
  · rcases allocate_claimed_spec db user target sub ids total h with ⟨hmap, _⟩
    rw [hmap]
    intro v hv
    rcases List.mem_map.mp hv with ⟨w, hw, rfl⟩
    by_cases hc : ids.contains w.id
    · rw [if_pos hc]
      simp
    · simp only [hc]
      rw [if_neg (by simp [hc])]
      exact hinv w hw

theorem markUsed_assigned_unchanged (db : List Voucher) (user : Nat) :
    ((markUsed db user).1).map Voucher.assigned_to =
      db.map Voucher.assigned_to := by
  unfold markUsed
  dsimp only
  rw [List.map_map]
  apply List.map_congr_left
  intro v _
  simp only [Function.comp_apply]
  split <;> rfl

theorem assignedInv_markUsed (db : List Voucher) (user : Nat)
    (hinv : assignedInv db) (hnd : (db.map Voucher.id).Nodup) :
    assignedInv (markUsed db user).1 := by
  unfold markUsed
  dsimp only
  intro v hv
  rcases List.mem_map.mp hv with ⟨w, hw, rfl⟩
  by_cases hc : ((db.filter fun v =>
      v.status == Status.pending && v.assigned_to == some user).map
      Voucher.id).contains w.id
  · have hmem : w.id ∈ (db.filter fun v =>
        v.status == Status.pending && v.assigned_to == some user).map
        Voucher.id := by
      simpa using hc
    rcases List.mem_map.mp hmem with ⟨u, hu, huid⟩
    have hu' := List.mem_filter.mp hu
    have huw : u = w := List.inj_on_of_nodup_map hnd hu'.1 hw huid
    have hcond := hu'.2
    rw [Bool.and_eq_true] at hcond
    have hassigned : w.assigned_to = some user := by
      rw [← huw]
      exact beq_iff_eq.mp hcond.2
    rw [if_pos hc]
    simp [hassigned]
  · simp only [hc]
    rw [if_neg (by simp [hc])]
    exact hinv w hw

/-- C8: In every reachable store state `assigned_to` is non-null iff the
status is Pending or Used: the invariant holds for the empty store and is
preserved by every operation; `markUsed` never touches `assigned_to`; and
the claiming transaction sets `assigned_to` only on rows that were
Available with a null `assigned_to` (so it is set exactly once, by the
Available→Pending transition). -/
theorem assigned_iff_claimed_inv (db : List Voucher) (user target : Nat)
    (sub code : String) (a : Nat) (st src img : Option String)
    (hinv : assignedInv db) (hnd : (db.map Voucher.id).Nodup) :
    assignedInv ([] : List Voucher) ∧
    assignedInv (insertIfNew db code a st src img) ∧
    assignedInv (allocate db user target sub).2 ∧
    assignedInv (markUsed db user).1 ∧
    ((markUsed db user).1).map Voucher.assigned_to = db.map Voucher.assigned_to ∧
    (∀ ids total, (allocate db user target sub).1 = AllocOutcome.claimed ids total →
      ∀ v ∈ db, v.id ∈ ids →
        v.status = Status.available ∧ v.assigned_to = none) := by
  refine ⟨fun v hv => absurd hv (List.not_mem_nil v),
    assignedInv_insert db code a st src img hinv,
    assignedInv_allocate db user target sub hinv,
    assignedInv_markUsed db user hinv hnd,
    markUsed_assigned_unchanged db user, ?_⟩
  intro ids total h v hv hvid
  rcases allocate_claimed_spec db user target sub ids total h with ⟨_, hsrc⟩
  rcases hsrc v.id hvid with ⟨w, hw, hwid, hwavail, _⟩
  have hwv : w = v := List.inj_on_of_nodup_map hnd hw hv hwid
  subst hwv
  refine ⟨hwavail, ?_⟩
  have h1 : ¬(w.status = Status.pending ∨ w.status = Status.used) := by
    rw [hwavail]
    rintro (hs | hs) <;> exact Status.noConfusion hs
  have h2 := mt (hinv w hw).mp h1
  exact not_not.mp h2

theorem assigned_iff_claimed_inv_witness :
    assignedInv demoDB ∧ (demoDB.map Voucher.id).Nodup ∧
    (assignedInv ([] : List Voucher) ∧
    assignedInv (insertIfNew demoDB "22233344455566677" 50 none none none) ∧
    assignedInv (allocate demoDB 7 200 "shu").2 ∧
    assignedInv (markUsed demoDB 7).1 ∧
    ((markUsed demoDB 7).1).map Voucher.assigned_to =
      demoDB.map Voucher.assigned_to ∧
    (∀ ids total, (allocate demoDB 7 200 "shu").1 = AllocOutcome.claimed ids total →
      ∀ v ∈ demoDB, v.id ∈ ids →
        v.status = Status.available ∧ v.assigned_to = none)) :=
  ⟨by unfold assignedInv; decide, by decide,
    assigned_iff_claimed_inv demoDB 7 200 "shu" "22233344455566677" 50
      none none none (by unfold assignedInv; decide) (by decide)⟩

/-! ### Null-store rows are invisible (C10) -/

theorem insertAsc_perm (s : String) (l : List String) :
    List.Perm (insertAsc s l) (s :: l) := by
  induction l with
  | nil => exact List.Perm.refl _
  | cons t ts ih =>
    unfold insertAsc
    split
    · exact List.Perm.refl _
    · exact (ih.cons t).trans (List.Perm.swap s t ts)

theorem sortStringsAsc_perm (l : List String) :
    List.Perm (sortStringsAsc l) l := by
  induction l with
  | nil => exact List.Perm.refl _
  | cons s ss ih =>
    unfold sortStringsAsc
    exact (insertAsc_perm s (sortStringsAsc ss)).trans (ih.cons s)

/-- Every label in the store menu comes from an Available row with a
non-null store. -/
theorem listDistinctStores_sound (db : List Voucher) :
    ∀ s ∈ listDistinctStores db, ∃ v ∈ db, v.store = some s ∧
      v.status = Status.available := by
  intro s hs
  unfold listDistinctStores at hs
  rw [List.mem_dedup] at hs
  rw [(sortStringsAsc_perm _).mem_iff] at hs
  rw [List.mem_filterMap] at hs
  rcases hs with ⟨v, hv, hvs⟩
  have hv' := List.mem_filter.mp hv
  rw [Bool.and_eq_true] at hv'
  exact ⟨v, hv'.1, hvs, beq_iff_eq.mp hv'.2.1⟩

/-- C10: A voucher whose `store` is NULL is invisible to negotiation and
allocation: it never contributes to the distinct-store menu, it never
matches the candidate filter for any store substring, and every
allocation returns it (positionally) unchanged — its status cannot leave
Available through an allocation. -/
theorem null_store_invisible (db : List Voucher) (user target : Nat)
    (sub : String) (hnd : (db.map Voucher.id).Nodup) :
    (∀ s ∈ listDistinctStores db, ∃ v ∈ db, v.store = some s ∧
      v.status = Status.available) ∧
    (∀ v : Voucher, v.store = none → availMatch sub v = false) ∧
    (∀ i v, db.get? i = some v → v.store = none →
      ((allocate db user target sub).2).get? i = some v) := by
  refine ⟨listDistinctStores_sound db, ?_, ?_⟩
  · intro v hv
    unfold availMatch likeMatch
    rw [hv]
    exact Bool.and_false _
  · intro i v hget hstore
    rcases allocate_outcome_cases db user target sub with h | h | ⟨ids, total, h⟩
    · rw [allocate_aborted_unchanged db user target sub (Or.inl h)]
      exact hget
    · rw [allocate_aborted_unchanged db user target sub (Or.inr h)]
      exact hget
    · rcases allocate_claimed_spec db user target sub ids total h with ⟨hmap, hsrc⟩
      rw [hmap]
      have hvdb : v ∈ db := List.get?_mem hget
      have hnotin : v.id ∉ ids := by
        intro hin
        rcases hsrc v.id hin with ⟨w, hw, hwid, _, hwmatch⟩
        have hwv : w = v := List.inj_on_of_nodup_map hnd hw hvdb hwid
        rw [hwv] at hwmatch
        unfold likeMatch at hwmatch
        rw [hstore] at hwmatch
        exact Bool.false_ne_true hwmatch
      rw [List.get?_map, hget]
      simp [hnotin]

/-- A second store row, with a NULL store label. -/
def demoDB2 : List Voucher :=
  demoDB ++
    [{ id := 2
       code := "77788899900011122"
       amount := 100
       store := none
       status := Status.available
       source_email := none
       assigned_to := none
       barcode_image_path := none }]

theorem null_store_invisible_witness :
    (demoDB2.map Voucher.id).Nodup ∧
    ((∀ s ∈ listDistinctStores demoDB2, ∃ v ∈ demoDB2, v.store = some s ∧
      v.status = Status.available) ∧
    (∀ v : Voucher, v.store = none → availMatch "shu" v = false) ∧
    (∀ i v, demoDB2.get? i = some v → v.store = none →
      ((allocate demoDB2 7 200 "shu").2).get? i = some v)) :=
  ⟨by decide, null_store_invisible demoDB2 7 200 "shu" (by decide)⟩

/-! ## The Excel import loop (`import_excel` in `main.py`)

The per-row loop of `import_excel`, with the results of the external
steps (status-keyword match, link validity, amount parse, page fetch and
code extraction, barcode download) carried as the fields of the row
record — each is produced by an I/O adapter before the tally/insert logic
runs.  The returned triple is `(imported, skipped_used, skipped_error)`. -/

structure ExcelRow where
  /-- the status column matched a "used" keyword -/
  used_status : Bool
  /-- the link cell is non-empty and contains the provider's domain -/
  link_ok : Bool
  /-- parsed amount, if any -/
  amount : Option Nat
  /-- store column value -/
  store : Option String
  /-- code extracted from the fetched page (`none` = fetch/parse failure) -/
  code : Option String
  /-- downloaded barcode image path, if any -/
  img : Option String
deriving DecidableEq, Repr

def importStep (acc : List Voucher × Nat × Nat × Nat) (row : ExcelRow) :
    List Voucher × Nat × Nat × Nat :=
  match acc with
  | (db, imported, skipped_used, skipped_error) =>
    if row.used_status then (db, imported, skipped_used + 1, skipped_error)
    else if !row.link_ok then (db, imported, skipped_used, skipped_error + 1)
    else
      match row.code with
      | none => (db, imported, skipped_used, skipped_error + 1)
      | some code =>
        match row.amount with
        | none => (db, imported, skipped_used, skipped_error + 1)
        | some amt =>
          let db' := insertIfNew db code amt row.store (some "excel-import") row.img
          if db.any fun v => v.code == code then
            (db', imported, skipped_used, skipped_error + 1)
          else (db', imported + 1, skipped_used, skipped_error)

def import_excel (rows : List ExcelRow) (db : List Voucher) :
    List Voucher × Nat × Nat × Nat :=
  rows.foldl importStep (db, 0, 0, 0)

/-- One import step splits into the zero-counter step plus the incoming
counters. -/
theorem importStep_add (db : List Voucher) (i u e : Nat) (row : ExcelRow) :
    importStep (db, i, u, e) row =
      ((importStep (db, 0, 0, 0) row).1,
        i + (importStep (db, 0, 0, 0) row).2.1,
        u + (importStep (db, 0, 0, 0) row).2.2.1,
        e + (importStep (db, 0, 0, 0) row).2.2.2) := by
  unfold importStep
  dsimp only
  split
  · simp
  · split
    · simp
    · split
      · simp
      · split
        · simp
        · split
          · simp
          · simp

/-- The fold splits into the zero-counter fold plus the incoming
counters. -/
theorem foldl_importStep_add (rows : List ExcelRow) :
    ∀ (db : List Voucher) (i u e : Nat),
      rows.foldl importStep (db, i, u, e) =
        ((rows.foldl importStep (db, 0, 0, 0)).1,
          i + (rows.foldl importStep (db, 0, 0, 0)).2.1,
          u + (rows.foldl importStep (db, 0, 0, 0)).2.2.1,
          e + (rows.foldl importStep (db, 0, 0, 0)).2.2.2) := by
  induction rows with
  | nil => intro db i u e; simp
  | cons r rs ih =>
    intro db i u e
    simp only [List.foldl_cons]
    rw [importStep_add db i u e r]
    rw [ih ((importStep (db, 0, 0, 0) r).1)
      (i + (importStep (db, 0, 0, 0) r).2.1)
      (u + (importStep (db, 0, 0, 0) r).2.2.1)
      (e + (importStep (db, 0, 0, 0) r).2.2.2)]
    have hsplit : importStep (db, 0, 0, 0) r =
        ((importStep (db, 0, 0, 0) r).1, (importStep (db, 0, 0, 0) r).2.1,
          (importStep (db, 0, 0, 0) r).2.2.1,
          (importStep (db, 0, 0, 0) r).2.2.2) := rfl
    conv_rhs => rw [hsplit]
    rw [ih ((importStep (db, 0, 0, 0) r).1)
      ((importStep (db, 0, 0, 0) r).2.1)
      ((importStep (db, 0, 0, 0) r).2.2.1)
      ((importStep (db, 0, 0, 0) r).2.2.2)]
    simp [Nat.add_assoc]

/-- C9 (amended): A batch-import row whose extracted code already exists
is silently absorbed — nothing is inserted, no exception is raised, and
the importing continues with the remaining rows — and it is tallied in the
`skipped_error` counter, which the import shares between duplicates and
parse/fetch errors (there is no separate duplicate tally in the returned
`(imported, skipped_used, skipped_error)`). -/
theorem import_excel_duplicate_absorbed (db : List Voucher)
    (rest : List ExcelRow) (r : ExcelRow) (c : String) (a : Nat)
    (h1 : r.used_status = false) (h2 : r.link_ok = true)
    (h3 : r.code = some c) (h4 : r.amount = some a)
    (h5 : ∃ v ∈ db, v.code = c) :
    import_excel (r :: rest) db =
      ((import_excel rest db).1, (import_excel rest db).2.1,
        (import_excel rest db).2.2.1, (import_excel rest db).2.2.2 + 1) := by
  unfold import_excel
  simp only [List.foldl_cons]
  have hany : (db.any fun v => v.code == c) = true := by
    rcases h5 with ⟨v, hv, hc⟩
    exact List.any_eq_true.mpr ⟨v, hv, by simp [hc]⟩
  have hstep : importStep (db, 0, 0, 0) r = (db, 0, 0, 1) := by
    unfold importStep
    rw [h1, h2, h3, h4]
    dsimp only
    rw [if_neg (by simp), hany]
    simp [insertIfNew, hany]
  rw [hstep, foldl_importStep_add rest db 0 0 1]
  simp [Nat.add_comm]

theorem import_excel_duplicate_absorbed_witness :
    ({ used_status := false, link_ok := true, amount := some 200,
       store := some "shufersal", code := some "91098085941400300563",
       img := none } : ExcelRow).used_status = false ∧
    (∃ v ∈ demoDB, v.code = "91098085941400300563") ∧
    import_excel
        [{ used_status := false, link_ok := true, amount := some 200,
           store := some "shufersal", code := some "91098085941400300563",
           img := none }] demoDB =
      ((import_excel [] demoDB).1, (import_excel [] demoDB).2.1,
        (import_excel [] demoDB).2.2.1, (import_excel [] demoDB).2.2.2 + 1) :=
  ⟨rfl, by decide,
    import_excel_duplicate_absorbed demoDB []
      { used_status := false, link_ok := true, amount := some 200,
        store := some "shufersal", code := some "91098085941400300563",
        img := none }
      "91098085941400300563" 200 rfl rfl rfl rfl (by decide)⟩

/-- C9 (counterexample): the returned tallies do not report duplicates
separately from parse/fetch errors — a duplicate row and a
fetch-failure row increment the very same `skipped_error` component of
the returned `(imported, skipped_used, skipped_error)` triple. -/
theorem import_excel_dup_not_separate :
    import_excel
        [{ used_status := false, link_ok := true, amount := some 200,
           store := some "shufersal", code := some "91098085941400300563",
           img := none }] demoDB = (demoDB, 0, 0, 1) ∧
    import_excel
        [{ used_status := false, link_ok := true, amount := some 100,
           store := none, code := none, img := none }] demoDB =
      (demoDB, 0, 0, 1) ∧
    import_excel
        [{ used_status := false, link_ok := true, amount := some 200,
           store := some "shufersal", code := some "91098085941400300563",
           img := none },
         { used_status := false, link_ok := true, amount := some 100,
           store := none, code := none, img := none }] demoDB =
      (demoDB, 0, 0, 2) := by
  refine ⟨?_, rfl, ?_⟩ <;> decide

/-! ## The numeric branches of `handle_message` (negotiation state machine)

Per-requester state is the `pending_amount` entry (`none` = Idle,
`some target` = AwaitingStore).  A numeric text message routes to:
* STEP 2 when a pending amount exists: re-query the store menu; an
  in-range choice resolves the store and runs the claim; an out-of-range
  choice is reinterpreted as a new target amount — the code clears the
  state and re-runs the menu logic inline, WITHOUT the Step‑1 bounds
  check;
* STEP 1 otherwise: bounds-check the amount (`target <= 0 or target >
  MAX_VOUCHER_AMOUNT` is rejected), then present the menu. -/

def MAX_VOUCHER_AMOUNT : Nat := 10000

inductive Reply where
  /-- the enumerated store menu for a pending target -/
  | menu (target : Nat) (stores : List String)
  /-- "No available vouchers in the database." -/
  | noInventoryMsg
  /-- "Please enter an amount between 1 and 10,000 ₪." -/
  | boundsMsg
  /-- "Finding best combo…" followed by the claim transaction -/
  | claimRun (target : Nat) (store : String)
deriving DecidableEq, Repr

def handleNumeric (db : List Voucher) (pending : Option Nat) (c : Nat) :
    Option Nat × Reply :=
  match pending with
  | some target =>
    let stores := listDistinctStores db
    if c < 1 ∨ stores.length < c then
      if stores.isEmpty then (none, Reply.noInventoryMsg)
      else (some c, Reply.menu c stores)
    else (none, Reply.claimRun target (stores.getD (c - 1) ""))
  | none =>
    if c ≤ 0 ∨ MAX_VOUCHER_AMOUNT < c then (none, Reply.boundsMsg)
    else
      let stores := listDistinctStores db
      if stores.isEmpty then (none, Reply.noInventoryMsg)
      else (some c, Reply.menu c stores)

/-- C5 (code bug): with one store on the menu, the out-of-range choices
`99999` (above `MAX_VOUCHER_AMOUNT`) and `0` are accepted as new pending
targets by the AwaitingStore branch, with a store menu presented —
whereas the Idle amount transition rejects both with the bounds message.
The reinterpretation path skips the bounds check it claims (in its own
comment) to fall through to. -/
theorem awaiting_store_skips_bounds_check :
    handleNumeric demoDB (some 200) 99999 =
      (some 99999, Reply.menu 99999 ["shufersal"]) ∧
    handleNumeric demoDB none 99999 = (none, Reply.boundsMsg) ∧
    handleNumeric demoDB (some 200) 0 =
      (some 0, Reply.menu 0 ["shufersal"]) ∧
    handleNumeric demoDB none 0 = (none, Reply.boundsMsg) := by
  refine ⟨?_, ?_, ?_, ?_⟩ <;> decide
